import Mathlib

/-!
Shallow embedding of the `hole-vec` crate (`src/lib.rs`): a gap-buffer
container `HoleVec<T>` layered over a `std::collections::VecDeque<T>`.

Modelling choices:
* The `VecDeque` is modelled by its logical sequence of elements, front to
  back, as a `List α`.  The physical wraparound split that determines
  `VecDeque::as_slices()` is an extra parameter `s` (the length of the
  physical front slice); the `VecDeque` contract guarantees `s ≤ length`
  and that the two slices concatenate to the logical contents.
* Rust operations that can panic (`assert!`, `slice::split_at`, usize
  subtraction, `Option::expect`) are modelled as `Option`-returning
  functions, `none` standing for the panic.
* `usize` arithmetic that cannot overflow at these sizes is `Nat`.
-/

set_option linter.unusedVariables false

namespace HoleVecSpec

namespace VecDeque

/-- `VecDeque::rotate_left(mid)`: moves the first `mid` elements of the
logical sequence to the back; panics when `mid > len`. -/
def rotate_left {α : Type} (l : List α) (mid : Nat) : Option (List α) :=
  if mid ≤ l.length then some (l.drop mid ++ l.take mid) else none

/-- `VecDeque::rotate_right(k)`: moves the last `k` elements of the logical
sequence to the front; panics when `k > len`. -/
def rotate_right {α : Type} (l : List α) (k : Nat) : Option (List α) :=
  if k ≤ l.length then
    some (l.drop (l.length - k) ++ l.take (l.length - k))
  else none

/-- `VecDeque::as_slices()`: the pair of physical slices, parameterised by
the wraparound split point `s` (length of the physical front slice).  The
`VecDeque` contract is `s ≤ l.length` and front ++ back = logical contents. -/
def as_slices {α : Type} (l : List α) (s : Nat) : List α × List α :=
  (l.take s, l.drop s)

end VecDeque

/-- Rust `slice::split_at(mid)`: panics when `mid > len`. -/
def split_at {α : Type} (l : List α) (mid : Nat) : Option (List α × List α) :=
  if mid ≤ l.length then some (l.take mid, l.drop mid) else none

/-- Rust `usize` subtraction `a - b`: panics (in debug) on underflow. -/
def checked_sub (a b : Nat) : Option Nat :=
  if b ≤ a then some (a - b) else none

/-- The `HoleVec<T>` struct: `vec` is the logical contents of the
`VecDeque` and `hole_position` the number of values before the hole. -/
structure HoleVec (α : Type) where
  vec : List α
  hole_position : Nat
deriving DecidableEq, Repr

namespace HoleVec

variable {α : Type}

/-- `HoleVec::new()`. -/
def new (α : Type) : HoleVec α := ⟨[], 0⟩

/-- `HoleVec::with_capacity(capacity)`: the capacity only pre-reserves
storage and does not affect the logical state. -/
def with_capacity (α : Type) (capacity : Nat) : HoleVec α := ⟨[], 0⟩

/-- `HoleVec::len()`. -/
def len (self : HoleVec α) : Nat := self.vec.length

/-- `HoleVec::is_empty()`. -/
def is_empty (self : HoleVec α) : Bool := self.vec.isEmpty

/-- `HoleVec::len_before_hole()`. -/
def len_before_hole (self : HoleVec α) : Nat := self.hole_position

/-- `HoleVec::len_after_hole()`: `self.len() - self.hole_position` as
truncated `Nat` subtraction; absence of underflow is proved separately. -/
def len_after_hole (self : HoleVec α) : Nat := self.len - self.hole_position

/-- `HoleVec::push_before_hole(value)`: `push_back` then `hole_position += 1`. -/
def push_before_hole (self : HoleVec α) (value : α) : HoleVec α :=
  ⟨self.vec ++ [value], self.hole_position + 1⟩

/-- `HoleVec::push_after_hole(value)`: `push_front`. -/
def push_after_hole (self : HoleVec α) (value : α) : HoleVec α :=
  ⟨value :: self.vec, self.hole_position⟩

/-- `HoleVec::pop_before_hole()`: when `len_before_hole() > 0`, decrement
`hole_position` and `pop_back`, with `.expect("BUG")` modelled as the outer
`Option` (`none` = panic); otherwise return no value and leave the state. -/
def pop_before_hole (self : HoleVec α) : Option (Option α × HoleVec α) :=
  if self.len_before_hole > 0 then
    match self.vec.getLast? with
    | some v => some (some v, ⟨self.vec.dropLast, self.hole_position - 1⟩)
    | none => none
  else some (none, self)

/-- `HoleVec::pop_after_hole()`: when `len_after_hole() > 0`, `pop_front`
with `.expect("BUG")` modelled as the outer `Option`; otherwise return no
value and leave the state. -/
def pop_after_hole (self : HoleVec α) : Option (Option α × HoleVec α) :=
  if self.len_after_hole > 0 then
    match self.vec.head? with
    | some v => some (some v, ⟨self.vec.tail, self.hole_position⟩)
    | none => none
  else some (none, self)

/-- `HoleVec::move_hole_right(amount)`: `assert!(amount <= len_after_hole)`,
then `hole_position += amount` and `rotate_left(amount)`. -/
def move_hole_right (self : HoleVec α) (amount : Nat) : Option (HoleVec α) :=
  if amount ≤ self.len_after_hole then
    (VecDeque.rotate_left self.vec amount).map
      (fun l => ⟨l, self.hole_position + amount⟩)
  else none

/-- `HoleVec::move_hole_left(amount)`: `assert!(amount <= len_before_hole)`,
then `hole_position -= amount` and `rotate_right(amount)`. -/
def move_hole_left (self : HoleVec α) (amount : Nat) : Option (HoleVec α) :=
  if amount ≤ self.len_before_hole then
    (VecDeque.rotate_right self.vec amount).map
      (fun l => ⟨l, self.hole_position - amount⟩)
  else none

/-- `HoleVec::set_hole_position(position)`: `assert!(position <= len)`, then
delegate to `move_hole_right`/`move_hole_left` for the signed distance. -/
def set_hole_position (self : HoleVec α) (position : Nat) : Option (HoleVec α) :=
  if position ≤ self.len then
    if position > self.hole_position then
      self.move_hole_right (position - self.hole_position)
    else
      self.move_hole_left (self.hole_position - position)
  else none

/-- `HoleVec::as_slices()`: reconciles the hole split with the physical
wraparound split `s` of the underlying deque.  The source binds the deque's
physical front to `after_hole` and physical back to `before_hole`. -/
def as_slices (self : HoleVec α) (s : Nat) : Option (List α × List α × List α) :=
  let p := VecDeque.as_slices self.vec s
  let after_hole := p.1
  let before_hole := p.2
  if self.len_after_hole ≤ after_hole.length then
    (split_at after_hole self.len_after_hole).map
      (fun q => (q.2, before_hole, q.1))
  else
    (checked_sub before_hole.length self.len_before_hole).bind (fun mid =>
      (split_at before_hole mid).map (fun q => (q.2, after_hole, q.1)))

/-- `HoleVec::as_slices_before_hole()`. -/
def as_slices_before_hole (self : HoleVec α) (s : Nat) :
    Option (List α × List α) :=
  let p := VecDeque.as_slices self.vec s
  let after_hole := p.1
  let before_hole := p.2
  if self.len_after_hole ≤ after_hole.length then
    (split_at after_hole self.len_after_hole).map
      (fun q => (q.2, before_hole))
  else
    (checked_sub before_hole.length self.len_before_hole).bind (fun mid =>
      (split_at before_hole mid).map (fun q => (q.2, ([] : List α))))

/-- `HoleVec::as_slices_after_hole()`. -/
def as_slices_after_hole (self : HoleVec α) (s : Nat) :
    Option (List α × List α) :=
  let p := VecDeque.as_slices self.vec s
  let after_hole := p.1
  let before_hole := p.2
  if self.len_after_hole ≤ after_hole.length then
    (split_at after_hole self.len_after_hole).map
      (fun q => (q.1, ([] : List α)))
  else
    (checked_sub before_hole.length self.len_before_hole).bind (fun mid =>
      (split_at before_hole mid).map (fun q => (after_hole, q.1)))

/-- The representation invariant: the hole position is a valid split point
of the logical sequence (`0 ≤ hole_position ≤ len` in the spec; the lower
bound is automatic for `usize`/`Nat`). -/
def Inv (self : HoleVec α) : Prop := self.hole_position ≤ self.vec.length

instance (self : HoleVec α) : Decidable self.Inv :=
  inferInstanceAs (Decidable (_ ≤ _))

/-- Abstraction: the after-hole region of the logical sequence.  Because
`push_after_hole` is `push_front` and `push_before_hole` is `push_back`, the
deque stores the after-hole region (in order) first, then the before-hole
region (in order). -/
def after_region (self : HoleVec α) : List α :=
  self.vec.take self.len_after_hole

/-- Abstraction: the before-hole region of the logical sequence, in
insertion order. -/
def before_region (self : HoleVec α) : List α :=
  self.vec.drop self.len_after_hole

/-- Abstraction: the full logical sequence with the hole excised —
before-hole region followed by after-hole region. -/
def logical_seq (self : HoleVec α) : List α :=
  self.before_region ++ self.after_region

end HoleVec

namespace HoleVec

variable {α : Type}

theorem len_after_hole_le_length (h : HoleVec α) :
    h.len_after_hole ≤ h.vec.length :=
  Nat.sub_le _ _

theorem length_after_region (h : HoleVec α) :
    h.after_region.length = h.len_after_hole := by
  simp [after_region, HoleVec.len_after_hole, HoleVec.len]

theorem length_before_region (h : HoleVec α) (hI : h.Inv) :
    h.before_region.length = h.hole_position := by
  have hI' : h.hole_position ≤ h.vec.length := hI
  simp only [before_region, List.length_drop, HoleVec.len_after_hole, HoleVec.len]
  omega

theorem after_append_before (h : HoleVec α) :
    h.after_region ++ h.before_region = h.vec :=
  List.take_append_drop _ _

theorem move_hole_right_eq (h : HoleVec α) (k : Nat) (hk : k ≤ h.len_after_hole) :
    h.move_hole_right k =
      some ⟨h.vec.drop k ++ h.vec.take k, h.hole_position + k⟩ := by
  have hk' : k ≤ h.vec.length := le_trans hk h.len_after_hole_le_length
  simp [HoleVec.move_hole_right, VecDeque.rotate_left, hk, hk']

theorem move_hole_left_eq (h : HoleVec α) (k : Nat) (hI : h.Inv)
    (hk : k ≤ h.len_before_hole) :
    h.move_hole_left k =
      some ⟨h.vec.drop (h.vec.length - k) ++ h.vec.take (h.vec.length - k),
            h.hole_position - k⟩ := by
  have hk' : k ≤ h.vec.length := le_trans hk hI
  simp [HoleVec.move_hole_left, VecDeque.rotate_right, hk, hk']

theorem move_hole_right_regions (h : HoleVec α) (k : Nat) (hI : h.Inv)
    (hk : k ≤ h.len_after_hole) :
    ∃ h', h.move_hole_right k = some h' ∧ h'.Inv ∧
      h'.hole_position = h.hole_position + k ∧
      h'.before_region = h.before_region ++ h.after_region.take k ∧
      h'.after_region = h.after_region.drop k := by
  have hn : h.hole_position ≤ h.vec.length := hI
  have hk1 : k ≤ h.vec.length - h.hole_position := hk
  have hk' : k ≤ h.vec.length := le_trans hk h.len_after_hole_le_length
  refine ⟨_, h.move_hole_right_eq k hk, ?_, rfl, ?_, ?_⟩
  · show h.hole_position + k ≤ _
    simp only [List.length_append, List.length_drop, List.length_take]
    omega
  · show (h.vec.drop k ++ h.vec.take k).drop _ = _
    have hlen : (h.vec.drop k ++ h.vec.take k).length = h.vec.length := by
      simp only [List.length_append, List.length_drop, List.length_take]
      omega
    simp only [before_region, after_region, HoleVec.len_after_hole, HoleVec.len, hlen]
    rw [List.drop_append_eq_append_drop]
    have h1 : h.vec.length - (h.hole_position + k) ≤ (h.vec.drop k).length := by
      simp only [List.length_drop]; omega
    have h2 : h.vec.length - (h.hole_position + k) - (h.vec.drop k).length = 0 := by
      simp only [List.length_drop]; omega
    rw [h2, List.drop_drop, List.drop_zero, List.take_take]
    have h3 : k + (h.vec.length - (h.hole_position + k)) =
        h.vec.length - h.hole_position := by omega
    have h4 : min k (h.vec.length - h.hole_position) = k := by omega
    rw [h3, h4]
  · show (h.vec.drop k ++ h.vec.take k).take _ = _
    have hlen : (h.vec.drop k ++ h.vec.take k).length = h.vec.length := by
      simp only [List.length_append, List.length_drop, List.length_take]
      omega
    simp only [after_region, HoleVec.len_after_hole, HoleVec.len, hlen]
    have h1 : h.vec.length - (h.hole_position + k) ≤ (h.vec.drop k).length := by
      simp only [List.length_drop]; omega
    rw [List.take_append_of_le_length h1, List.drop_take]
    have h2 : h.vec.length - h.hole_position - k =
        h.vec.length - (h.hole_position + k) := by omega
    rw [h2]

theorem move_hole_left_regions (h : HoleVec α) (k : Nat) (hI : h.Inv)
    (hk : k ≤ h.len_before_hole) :
    ∃ h', h.move_hole_left k = some h' ∧ h'.Inv ∧
      h'.hole_position = h.hole_position - k ∧
      h'.before_region = h.before_region.take (h.hole_position - k) ∧
      h'.after_region =
        h.before_region.drop (h.hole_position - k) ++ h.after_region := by
  have hn : h.hole_position ≤ h.vec.length := hI
  have hk1 : k ≤ h.hole_position := hk
  refine ⟨_, h.move_hole_left_eq k hI hk, ?_, rfl, ?_, ?_⟩
  · show h.hole_position - k ≤ _
    simp only [List.length_append, List.length_drop, List.length_take]
    omega
  · show (h.vec.drop (h.vec.length - k) ++ h.vec.take (h.vec.length - k)).drop _ = _
    have hlen : (h.vec.drop (h.vec.length - k) ++
        h.vec.take (h.vec.length - k)).length = h.vec.length := by
      simp only [List.length_append, List.length_drop, List.length_take]
      omega
    simp only [before_region, HoleVec.len_after_hole, HoleVec.len, hlen]
    rw [List.drop_append_eq_append_drop]
    have h1 : (h.vec.drop (h.vec.length - k)).length = k := by
      simp only [List.length_drop]; omega
    have h2 : (h.vec.drop (h.vec.length - k)).drop
        (h.vec.length - (h.hole_position - k)) = [] := by
      apply List.drop_eq_nil_of_le
      simp only [List.length_drop]; omega
    rw [h2, List.nil_append, h1]
    have h3 : h.vec.length - (h.hole_position - k) - k =
        h.vec.length - h.hole_position := by omega
    rw [h3, List.drop_take]
    have h4 : h.vec.length - k - (h.vec.length - h.hole_position) =
        h.hole_position - k := by omega
    rw [h4]
  · show (h.vec.drop (h.vec.length - k) ++ h.vec.take (h.vec.length - k)).take _ = _
    have hlen : (h.vec.drop (h.vec.length - k) ++
        h.vec.take (h.vec.length - k)).length = h.vec.length := by
      simp only [List.length_append, List.length_drop, List.length_take]
      omega
    simp only [before_region, after_region, HoleVec.len_after_hole, HoleVec.len, hlen]
    rw [List.take_append_eq_append_take]
    have h1 : (h.vec.drop (h.vec.length - k)).take
        (h.vec.length - (h.hole_position - k)) = h.vec.drop (h.vec.length - k) := by
      apply List.take_of_length_le
      simp only [List.length_drop]; omega
    have h2 : h.vec.length - (h.hole_position - k) -
        (h.vec.drop (h.vec.length - k)).length = h.vec.length - h.hole_position := by
      simp only [List.length_drop]; omega
    rw [h1, h2, List.take_take, List.drop_drop]
    have h3 : min (h.vec.length - h.hole_position) (h.vec.length - k) =
        h.vec.length - h.hole_position := by omega
    have h4 : h.vec.length - h.hole_position + (h.hole_position - k) =
        h.vec.length - k := by omega
    rw [h3, h4]

theorem move_hole_right_preserves_seq (h : HoleVec α) (k : Nat) (hI : h.Inv)
    (hk : k ≤ h.len_after_hole) :
    ∃ h', h.move_hole_right k = some h' ∧ h'.Inv ∧
      h'.hole_position = h.hole_position + k ∧
      h'.logical_seq = h.logical_seq := by
  obtain ⟨h', he, hI', hp', hb, ha⟩ := h.move_hole_right_regions k hI hk
  refine ⟨h', he, hI', hp', ?_⟩
  simp only [logical_seq, hb, ha, List.append_assoc, List.take_append_drop]

theorem move_hole_left_preserves_seq (h : HoleVec α) (k : Nat) (hI : h.Inv)
    (hk : k ≤ h.len_before_hole) :
    ∃ h', h.move_hole_left k = some h' ∧ h'.Inv ∧
      h'.hole_position = h.hole_position - k ∧
      h'.logical_seq = h.logical_seq := by
  obtain ⟨h', he, hI', hp', hb, ha⟩ := h.move_hole_left_regions k hI hk
  refine ⟨h', he, hI', hp', ?_⟩
  simp only [logical_seq, hb, ha, ← List.append_assoc, List.take_append_drop]

theorem move_right_then_left_exact (h : HoleVec α) (k : Nat) (hI : h.Inv)
    (hk : k ≤ h.len_after_hole) :
    ∃ h', h.move_hole_right k = some h' ∧ h'.move_hole_left k = some h := by
  have hn : h.hole_position ≤ h.vec.length := hI
  have hk' : k ≤ h.vec.length := le_trans hk h.len_after_hole_le_length
  have hk1 : k ≤ h.vec.length - h.hole_position := hk
  refine ⟨_, h.move_hole_right_eq k hk, ?_⟩
  set h' : HoleVec α := ⟨h.vec.drop k ++ h.vec.take k, h.hole_position + k⟩ with hh'
  have hlen : h'.vec.length = h.vec.length := by
    simp only [hh', List.length_append, List.length_drop, List.length_take]
    omega
  have hI' : h'.Inv := by
    show h.hole_position + k ≤ h'.vec.length
    rw [hlen]; omega
  have hkb : k ≤ h'.len_before_hole := by
    show k ≤ h.hole_position + k
    omega
  rw [h'.move_hole_left_eq k hI' hkb]
  congr 1
  have e1 : h'.vec.drop (h'.vec.length - k) = h.vec.take k := by
    rw [hlen]
    show (h.vec.drop k ++ h.vec.take k).drop (h.vec.length - k) = _
    rw [List.drop_append_eq_append_drop]
    have d1 : (h.vec.drop k).drop (h.vec.length - k) = [] := by
      apply List.drop_eq_nil_of_le
      simp only [List.length_drop]
      omega
    have d2 : h.vec.length - k - (h.vec.drop k).length = 0 := by
      simp only [List.length_drop]; omega
    rw [d1, d2, List.nil_append, List.drop_zero]
  have e2 : h'.vec.take (h'.vec.length - k) = h.vec.drop k := by
    rw [hlen]
    show (h.vec.drop k ++ h.vec.take k).take (h.vec.length - k) = _
    have d1 : h.vec.length - k ≤ (h.vec.drop k).length := by
      simp only [List.length_drop]
      omega
    rw [List.take_append_of_le_length d1]
    apply List.take_of_length_le
    simp only [List.length_drop]
    omega
  have e3 : h'.hole_position - k = h.hole_position := by
    show h.hole_position + k - k = h.hole_position
    omega
  rw [e1, e2, e3, List.take_append_drop]

theorem pop_before_hole_eq_pos (h : HoleVec α) (hI : h.Inv)
    (hp0 : 0 < h.hole_position) :
    ∃ v, h.vec.getLast? = some v ∧
      h.pop_before_hole =
        some (some v, ⟨h.vec.dropLast, h.hole_position - 1⟩) := by
  have hn : h.hole_position ≤ h.vec.length := hI
  have hne : h.vec ≠ [] := by
    intro hnil
    rw [hnil] at hn
    simp at hn
    omega
  obtain ⟨v, hv⟩ : ∃ v, h.vec.getLast? = some v := by
    cases hl : h.vec.getLast? with
    | none => exact absurd (List.getLast?_eq_none_iff.mp hl) hne
    | some v => exact ⟨v, rfl⟩
  refine ⟨v, hv, ?_⟩
  simp only [pop_before_hole, HoleVec.len_before_hole, hp0, if_pos, hv]

theorem pop_before_hole_eq_zero (h : HoleVec α) (hp0 : h.hole_position = 0) :
    h.pop_before_hole = some (none, h) := by
  simp [pop_before_hole, HoleVec.len_before_hole, hp0]

theorem pop_after_hole_eq_pos (h : HoleVec α) (hpos : 0 < h.len_after_hole) :
    ∃ v, h.vec.head? = some v ∧
      h.pop_after_hole = some (some v, ⟨h.vec.tail, h.hole_position⟩) := by
  have hne : h.vec ≠ [] := by
    intro hnil
    have : h.len_after_hole = 0 := by
      simp [HoleVec.len_after_hole, HoleVec.len, hnil]
    omega
  obtain ⟨v, hv⟩ : ∃ v, h.vec.head? = some v := by
    cases hl : h.vec.head? with
    | none => exact absurd (List.head?_eq_none_iff.mp hl) hne
    | some v => exact ⟨v, rfl⟩
  refine ⟨v, hv, ?_⟩
  simp only [pop_after_hole, hpos, if_pos, hv]

theorem pop_after_hole_eq_zero (h : HoleVec α) (hz : h.len_after_hole = 0) :
    h.pop_after_hole = some (none, h) := by
  simp [pop_after_hole, hz]

theorem as_slices_spec (h : HoleVec α) (s : Nat) (hI : h.Inv)
    (hs : s ≤ h.vec.length) :
    ∃ x y z, h.as_slices s = some (x, y, z) ∧ x ++ (y ++ z) = h.logical_seq := by
  have hn : h.hole_position ≤ h.vec.length := hI
  have hla : h.len_after_hole + h.hole_position = h.vec.length := by
    simp only [HoleVec.len_after_hole, HoleVec.len]
    omega
  have hlt : (h.vec.take s).length = s := by
    simp only [List.length_take]
    omega
  have hld : (h.vec.drop s).length = h.vec.length - s := List.length_drop _ _
  have hub : h.len_after_hole ≤ h.vec.length := h.len_after_hole_le_length
  by_cases hc : h.len_after_hole ≤ s
  · have hc' : h.len_after_hole ≤ (h.vec.take s).length := by
      rw [hlt]; exact hc
    refine ⟨(h.vec.take s).drop h.len_after_hole, h.vec.drop s,
      (h.vec.take s).take h.len_after_hole, ?_, ?_⟩
    · simp [as_slices, VecDeque.as_slices, split_at, hc, hub]
    · have e1 : (h.vec.take s).drop h.len_after_hole =
          (h.vec.drop h.len_after_hole).take (s - h.len_after_hole) :=
        List.drop_take _ _ _
      have e2 : h.vec.drop s =
          (h.vec.drop h.len_after_hole).drop (s - h.len_after_hole) := by
        rw [List.drop_drop]
        congr 1
        omega
      have e3 : (h.vec.take s).take h.len_after_hole =
          h.vec.take h.len_after_hole := by
        rw [List.take_take]
        congr 1
        omega
      rw [e1, e2, e3, ← List.append_assoc, List.take_append_drop]
      rfl
  · have hc' : ¬ h.len_after_hole ≤ (h.vec.take s).length := by
      rw [hlt]; exact hc
    have hc3 : h.hole_position ≤ (h.vec.drop s).length := by
      rw [hld]; omega
    have hsub2 : h.hole_position ≤ h.vec.length - s := by omega
    refine ⟨(h.vec.drop s).drop (h.vec.length - s - h.hole_position),
      h.vec.take s,
      (h.vec.drop s).take (h.vec.length - s - h.hole_position), ?_, ?_⟩
    · simp [as_slices, VecDeque.as_slices, split_at, checked_sub,
        len_before_hole, hc, hsub2, Nat.sub_le]
    · have hmid : h.vec.length - s - h.hole_position = h.len_after_hole - s := by
        omega
      rw [hmid]
      have e2 : h.vec.take s ++ (h.vec.drop s).take (h.len_after_hole - s) =
          h.vec.take h.len_after_hole := by
        rw [← List.take_add]
        congr 1
        omega
      have e1 : (h.vec.drop s).drop (h.len_after_hole - s) =
          h.vec.drop h.len_after_hole := by
        rw [List.drop_drop]
        congr 1
        omega
      rw [e2, e1]
      rfl

theorem as_slices_before_hole_spec (h : HoleVec α) (s : Nat) (hI : h.Inv)
    (hs : s ≤ h.vec.length) :
    ∃ x y, h.as_slices_before_hole s = some (x, y) ∧
      x ++ y = h.before_region := by
  have hn : h.hole_position ≤ h.vec.length := hI
  have hla : h.len_after_hole + h.hole_position = h.vec.length := by
    simp only [HoleVec.len_after_hole, HoleVec.len]
    omega
  have hlt : (h.vec.take s).length = s := by
    simp only [List.length_take]
    omega
  have hld : (h.vec.drop s).length = h.vec.length - s := List.length_drop _ _
  have hub : h.len_after_hole ≤ h.vec.length := h.len_after_hole_le_length
  by_cases hc : h.len_after_hole ≤ s
  · have hc' : h.len_after_hole ≤ (h.vec.take s).length := by
      rw [hlt]; exact hc
    refine ⟨(h.vec.take s).drop h.len_after_hole, h.vec.drop s, ?_, ?_⟩
    · simp [as_slices_before_hole, VecDeque.as_slices, split_at, hc, hub]
    · have e1 : (h.vec.take s).drop h.len_after_hole =
          (h.vec.drop h.len_after_hole).take (s - h.len_after_hole) :=
        List.drop_take _ _ _
      have e2 : h.vec.drop s =
          (h.vec.drop h.len_after_hole).drop (s - h.len_after_hole) := by
        rw [List.drop_drop]
        congr 1
        omega
      rw [e1, e2, List.take_append_drop]
      rfl
  · have hc' : ¬ h.len_after_hole ≤ (h.vec.take s).length := by
      rw [hlt]; exact hc
    have hc3 : h.hole_position ≤ (h.vec.drop s).length := by
      rw [hld]; omega
    have hsub2 : h.hole_position ≤ h.vec.length - s := by omega
    refine ⟨(h.vec.drop s).drop (h.vec.length - s - h.hole_position), [], ?_, ?_⟩
    · simp [as_slices_before_hole, VecDeque.as_slices, split_at, checked_sub,
        len_before_hole, hc, hsub2, Nat.sub_le]
    · have hmid : h.vec.length - s - h.hole_position = h.len_after_hole - s := by
        omega
      rw [hmid, List.append_nil, List.drop_drop]
      show h.vec.drop (s + (h.len_after_hole - s)) = h.vec.drop h.len_after_hole
      congr 1
      omega

theorem as_slices_after_hole_spec (h : HoleVec α) (s : Nat) (hI : h.Inv)
    (hs : s ≤ h.vec.length) :
    ∃ x y, h.as_slices_after_hole s = some (x, y) ∧
      x ++ y = h.after_region := by
  have hn : h.hole_position ≤ h.vec.length := hI
  have hla : h.len_after_hole + h.hole_position = h.vec.length := by
    simp only [HoleVec.len_after_hole, HoleVec.len]
    omega
  have hlt : (h.vec.take s).length = s := by
    simp only [List.length_take]
    omega
  have hld : (h.vec.drop s).length = h.vec.length - s := List.length_drop _ _
  have hub : h.len_after_hole ≤ h.vec.length := h.len_after_hole_le_length
  by_cases hc : h.len_after_hole ≤ s
  · have hc' : h.len_after_hole ≤ (h.vec.take s).length := by
      rw [hlt]; exact hc
    refine ⟨(h.vec.take s).take h.len_after_hole, [], ?_, ?_⟩
    · simp [as_slices_after_hole, VecDeque.as_slices, split_at, hc, hub]
    · rw [List.append_nil, List.take_take]
      show h.vec.take (min h.len_after_hole s) = h.after_region
      have : min h.len_after_hole s = h.len_after_hole := by omega
      rw [this]
      rfl
  · have hc' : ¬ h.len_after_hole ≤ (h.vec.take s).length := by
      rw [hlt]; exact hc
    have hc3 : h.hole_position ≤ (h.vec.drop s).length := by
      rw [hld]; omega
    have hsub2 : h.hole_position ≤ h.vec.length - s := by omega
    refine ⟨h.vec.take s,
      (h.vec.drop s).take (h.vec.length - s - h.hole_position), ?_, ?_⟩
    · simp [as_slices_after_hole, VecDeque.as_slices, split_at, checked_sub,
        len_before_hole, hc, hsub2, Nat.sub_le]
    · have hmid : h.vec.length - s - h.hole_position = h.len_after_hole - s := by
        omega
      rw [hmid, ← List.take_add]
      show h.vec.take (s + (h.len_after_hole - s)) = h.after_region
      have : s + (h.len_after_hole - s) = h.len_after_hole := by omega
      rw [this]
      rfl

end HoleVec

/-- C1: in every state satisfying the representation invariant (hence in every
reachable state), for every physical wraparound split `s` permitted by the
`VecDeque` contract, `as_slices()` succeeds and concatenating its three views
— first, then second, then third — yields exactly the full logical sequence:
the before-hole region in order followed by the after-hole region in order,
with the hole excised. -/
theorem C1_as_slices_concat {α : Type} (h : HoleVec α) (s : Nat)
    (hI : h.Inv) (hs : s ≤ h.vec.length) :
    ∃ x y z, h.as_slices s = some (x, y, z) ∧
      x ++ y ++ z = h.before_region ++ h.after_region := by
  obtain ⟨x, y, z, he, hcat⟩ := h.as_slices_spec s hI hs
  refine ⟨x, y, z, he, ?_⟩
  rw [List.append_assoc, hcat]
  rfl

/-- Witness for C1: the state `vec = [10, 20, 30]`, hole position 1, with
physical split 2 (a wrapped layout). -/
theorem C1_witness :
    (⟨[10, 20, 30], 1⟩ : HoleVec Nat).Inv ∧
    2 ≤ (⟨[10, 20, 30], 1⟩ : HoleVec Nat).vec.length ∧
    ∃ x y z, (⟨[10, 20, 30], 1⟩ : HoleVec Nat).as_slices 2 = some (x, y, z) ∧
      x ++ y ++ z = (⟨[10, 20, 30], 1⟩ : HoleVec Nat).before_region ++
        (⟨[10, 20, 30], 1⟩ : HoleVec Nat).after_region :=
  ⟨by decide, by decide,
    C1_as_slices_concat (⟨[10, 20, 30], 1⟩ : HoleVec Nat) 2 (by decide) (by decide)⟩

/-- C2: in every invariant-satisfying state and for every permitted physical
split `s`, the two views of `as_slices_before_hole()` concatenate to exactly
the before-hole region in insertion order, and the two views of
`as_slices_after_hole()` concatenate to exactly the after-hole region in its
own order. -/
theorem C2_region_slices {α : Type} (h : HoleVec α) (s : Nat)
    (hI : h.Inv) (hs : s ≤ h.vec.length) :
    (∃ x y, h.as_slices_before_hole s = some (x, y) ∧
      x ++ y = h.before_region) ∧
    (∃ x y, h.as_slices_after_hole s = some (x, y) ∧
      x ++ y = h.after_region) :=
  ⟨h.as_slices_before_hole_spec s hI hs, h.as_slices_after_hole_spec s hI hs⟩

/-- Witness for C2: the state `vec = [1, 2, 3, 4]`, hole position 3, with
physical split 1. -/
theorem C2_witness :
    (⟨[1, 2, 3, 4], 3⟩ : HoleVec Nat).Inv ∧
    1 ≤ (⟨[1, 2, 3, 4], 3⟩ : HoleVec Nat).vec.length ∧
    ((∃ x y, (⟨[1, 2, 3, 4], 3⟩ : HoleVec Nat).as_slices_before_hole 1 =
        some (x, y) ∧ x ++ y = (⟨[1, 2, 3, 4], 3⟩ : HoleVec Nat).before_region) ∧
     (∃ x y, (⟨[1, 2, 3, 4], 3⟩ : HoleVec Nat).as_slices_after_hole 1 =
        some (x, y) ∧ x ++ y = (⟨[1, 2, 3, 4], 3⟩ : HoleVec Nat).after_region)) :=
  ⟨by decide, by decide,
    C2_region_slices (⟨[1, 2, 3, 4], 3⟩ : HoleVec Nat) 1 (by decide) (by decide)⟩

/-- C3: `new` and `with_capacity` establish the invariant
`hole_position ≤ len()` (the lower bound `0 ≤ hole_position` being automatic
for an unsigned count), every public mutating operation preserves it, and
under the invariant `len_before_hole() + len_after_hole() = len()`. -/
theorem C3_invariant (α : Type) (h : HoleVec α) (hI : h.Inv) (v : α)
    (k p : Nat) :
    (HoleVec.new α).Inv ∧
    (∀ c, (HoleVec.with_capacity α c).Inv) ∧
    (h.push_before_hole v).Inv ∧
    (h.push_after_hole v).Inv ∧
    (∀ r h', h.pop_before_hole = some (r, h') → h'.Inv) ∧
    (∀ r h', h.pop_after_hole = some (r, h') → h'.Inv) ∧
    (∀ h', h.move_hole_right k = some h' → h'.Inv) ∧
    (∀ h', h.move_hole_left k = some h' → h'.Inv) ∧
    (∀ h', h.set_hole_position p = some h' → h'.Inv) ∧
    h.len_before_hole + h.len_after_hole = h.len := by
  have hn : h.hole_position ≤ h.vec.length := hI
  have hrel : h.len_after_hole = h.vec.length - h.hole_position := rfl
  have hlen : h.len = h.vec.length := rfl
  refine ⟨?_, ?_, ?_, ?_, ?_, ?_, ?_, ?_, ?_, ?_⟩
  · exact Nat.le_refl 0
  · intro c
    exact Nat.le_refl 0
  · show h.hole_position + 1 ≤ (h.vec ++ [v]).length
    simp only [List.length_append, List.length_cons, List.length_nil]
    omega
  · show h.hole_position ≤ (v :: h.vec).length
    simp only [List.length_cons]
    omega
  · intro r h' he
    by_cases hp0 : 0 < h.hole_position
    · obtain ⟨w, hw, heq⟩ := h.pop_before_hole_eq_pos hI hp0
      rw [heq] at he
      injection he with he'
      injection he' with hr hh
      subst hh
      show h.hole_position - 1 ≤ h.vec.dropLast.length
      rw [List.length_dropLast]
      omega
    · rw [h.pop_before_hole_eq_zero (by omega)] at he
      injection he with he'
      injection he' with hr hh
      subst hh
      exact hI
  · intro r h' he
    by_cases hla : 0 < h.len_after_hole
    · obtain ⟨w, hw, heq⟩ := h.pop_after_hole_eq_pos hla
      rw [heq] at he
      injection he with he'
      injection he' with hr hh
      subst hh
      show h.hole_position ≤ h.vec.tail.length
      rw [List.length_tail]
      omega
    · rw [h.pop_after_hole_eq_zero (by omega)] at he
      injection he with he'
      injection he' with hr hh
      subst hh
      exact hI
  · intro h' he
    by_cases hk : k ≤ h.len_after_hole
    · obtain ⟨h'', he'', hI'', _, _, _⟩ := h.move_hole_right_regions k hI hk
      rw [he''] at he
      injection he with he'
      subst he'
      exact hI''
    · simp [HoleVec.move_hole_right, hk] at he
  · intro h' he
    by_cases hk : k ≤ h.len_before_hole
    · obtain ⟨h'', he'', hI'', _, _, _⟩ := h.move_hole_left_regions k hI hk
      rw [he''] at he
      injection he with he'
      subst he'
      exact hI''
    · simp [HoleVec.move_hole_left, hk] at he
  · intro h' he
    by_cases hp1 : p ≤ h.len
    · simp only [HoleVec.set_hole_position, hp1, if_true, ite_true] at he
      by_cases hgt : p > h.hole_position
      · rw [if_pos hgt] at he
        have hk2 : p - h.hole_position ≤ h.len_after_hole := by omega
        obtain ⟨h'', he'', hI'', _, _, _⟩ := h.move_hole_right_regions _ hI hk2
        rw [he''] at he
        injection he with he'
        subst he'
        exact hI''
      · rw [if_neg hgt] at he
        have hk2 : h.hole_position - p ≤ h.len_before_hole := Nat.sub_le _ _
        obtain ⟨h'', he'', hI'', _, _, _⟩ := h.move_hole_left_regions _ hI hk2
        rw [he''] at he
        injection he with he'
        subst he'
        exact hI''
    · simp [HoleVec.set_hole_position, hp1] at he
  · simp only [HoleVec.len_before_hole, HoleVec.len_after_hole, HoleVec.len]
    omega

/-- Witness for C3: the state `vec = [5, 6]`, hole position 1, pushed value
9, relocation amount 1, target position 0. -/
theorem C3_witness :
    (⟨[5, 6], 1⟩ : HoleVec Nat).Inv ∧
    ((HoleVec.new Nat).Inv ∧
     (∀ c, (HoleVec.with_capacity Nat c).Inv) ∧
     ((⟨[5, 6], 1⟩ : HoleVec Nat).push_before_hole 9).Inv ∧
     ((⟨[5, 6], 1⟩ : HoleVec Nat).push_after_hole 9).Inv ∧
     (∀ r h', (⟨[5, 6], 1⟩ : HoleVec Nat).pop_before_hole = some (r, h') →
        h'.Inv) ∧
     (∀ r h', (⟨[5, 6], 1⟩ : HoleVec Nat).pop_after_hole = some (r, h') →
        h'.Inv) ∧
     (∀ h', (⟨[5, 6], 1⟩ : HoleVec Nat).move_hole_right 1 = some h' →
        h'.Inv) ∧
     (∀ h', (⟨[5, 6], 1⟩ : HoleVec Nat).move_hole_left 1 = some h' →
        h'.Inv) ∧
     (∀ h', (⟨[5, 6], 1⟩ : HoleVec Nat).set_hole_position 0 = some h' →
        h'.Inv) ∧
     (⟨[5, 6], 1⟩ : HoleVec Nat).len_before_hole +
       (⟨[5, 6], 1⟩ : HoleVec Nat).len_after_hole =
       (⟨[5, 6], 1⟩ : HoleVec Nat).len) :=
  ⟨by decide, C3_invariant Nat (⟨[5, 6], 1⟩ : HoleVec Nat) (by decide) 9 1 0⟩

/-- C4: in every invariant-satisfying state, for every `p ≤ len()`,
`set_hole_position(p)` succeeds (delegating to the relocation of the signed
distance), immediately afterwards `len_before_hole()` returns `p`, and the
full logical sequence — before-hole region followed by after-hole region —
is unchanged. -/
theorem C4_set_hole_position {α : Type} (h : HoleVec α) (p : Nat)
    (hI : h.Inv) (hp : p ≤ h.len) :
    ∃ h', h.set_hole_position p = some h' ∧ h'.len_before_hole = p ∧
      h'.before_region ++ h'.after_region =
        h.before_region ++ h.after_region := by
  have hn : h.hole_position ≤ h.vec.length := hI
  have hlen : h.len = h.vec.length := rfl
  have hrel : h.len_after_hole = h.vec.length - h.hole_position := rfl
  by_cases hgt : p > h.hole_position
  · have hk : p - h.hole_position ≤ h.len_after_hole := by omega
    obtain ⟨h', he, hI', hpos, hseq⟩ := h.move_hole_right_preserves_seq _ hI hk
    refine ⟨h', ?_, ?_, hseq⟩
    · simp only [HoleVec.set_hole_position, hp, hgt, if_true, ite_true]
      exact he
    · show h'.hole_position = p
      omega
  · have hk : h.hole_position - p ≤ h.len_before_hole := Nat.sub_le _ _
    obtain ⟨h', he, hI', hpos, hseq⟩ := h.move_hole_left_preserves_seq _ hI hk
    refine ⟨h', ?_, ?_, hseq⟩
    · simp only [HoleVec.set_hole_position, hp, hgt, if_true, ite_true, if_false,
        ite_false]
      exact he
    · show h'.hole_position = p
      omega

/-- Witness for C4: the state `vec = [1, 2, 3]`, hole position 0, target
position 2. -/
theorem C4_witness :
    (⟨[1, 2, 3], 0⟩ : HoleVec Nat).Inv ∧
    2 ≤ (⟨[1, 2, 3], 0⟩ : HoleVec Nat).len ∧
    ∃ h', (⟨[1, 2, 3], 0⟩ : HoleVec Nat).set_hole_position 2 = some h' ∧
      h'.len_before_hole = 2 ∧
      h'.before_region ++ h'.after_region =
        (⟨[1, 2, 3], 0⟩ : HoleVec Nat).before_region ++
          (⟨[1, 2, 3], 0⟩ : HoleVec Nat).after_region :=
  ⟨by decide, by decide,
    C4_set_hole_position (⟨[1, 2, 3], 0⟩ : HoleVec Nat) 2 (by decide) (by decide)⟩

/-- C5: `pop_before_hole()` returns no value exactly when the before-hole
region is empty, leaving the state unchanged in that case; on success it
returns the last element of the before-hole region (the element immediately
left of the hole) and `hole_position` decreases by 1.  `pop_after_hole()`
returns no value exactly when the after-hole region is empty, and on success
returns the first element of the after-hole region (the element immediately
right of the hole). -/
theorem C5_pop_semantics {α : Type} (h : HoleVec α) (hI : h.Inv) :
    (h.before_region = [] → h.pop_before_hole = some (none, h)) ∧
    (h.before_region ≠ [] → ∃ v h',
      h.pop_before_hole = some (some v, h') ∧
      h.before_region.getLast? = some v ∧
      h'.hole_position + 1 = h.hole_position) ∧
    (h.after_region = [] → h.pop_after_hole = some (none, h)) ∧
    (h.after_region ≠ [] → ∃ v h',
      h.pop_after_hole = some (some v, h') ∧
      h.after_region.head? = some v) := by
  have hn : h.hole_position ≤ h.vec.length := hI
  have hlb : h.before_region.length = h.hole_position := h.length_before_region hI
  have hla : h.after_region.length = h.len_after_hole := h.length_after_region
  refine ⟨?_, ?_, ?_, ?_⟩
  · intro hbe
    apply h.pop_before_hole_eq_zero
    rw [hbe] at hlb
    simpa using hlb.symm
  · intro hbe
    have hp0 : 0 < h.hole_position := by
      rcases Nat.eq_zero_or_pos h.hole_position with h0 | h0
      · rw [h0] at hlb
        exact absurd (List.length_eq_zero.mp hlb) hbe
      · exact h0
    obtain ⟨v, hv, heq⟩ := h.pop_before_hole_eq_pos hI hp0
    refine ⟨v, _, heq, ?_, ?_⟩
    · rw [← h.after_append_before] at hv
      rwa [List.getLast?_append_of_ne_nil _ hbe] at hv
    · show h.hole_position - 1 + 1 = h.hole_position
      omega
  · intro hae
    apply h.pop_after_hole_eq_zero
    rw [hae] at hla
    simpa using hla.symm
  · intro hae
    have hla0 : 0 < h.len_after_hole := by
      rcases Nat.eq_zero_or_pos h.len_after_hole with h0 | h0
      · rw [h0] at hla
        exact absurd (List.length_eq_zero.mp hla) hae
      · exact h0
    obtain ⟨v, hv, heq⟩ := h.pop_after_hole_eq_pos hla0
    refine ⟨v, _, heq, ?_⟩
    show (h.vec.take h.len_after_hole).head? = some v
    rw [List.head?_take, if_neg (by omega)]
    exact hv

/-- Witness for C5: the state `vec = [7, 8, 9]`, hole position 2 (before
region `[8, 9]`, after region `[7]`). -/
theorem C5_witness :
    (⟨[7, 8, 9], 2⟩ : HoleVec Nat).Inv ∧
    (((⟨[7, 8, 9], 2⟩ : HoleVec Nat).before_region = [] →
        (⟨[7, 8, 9], 2⟩ : HoleVec Nat).pop_before_hole =
          some (none, (⟨[7, 8, 9], 2⟩ : HoleVec Nat))) ∧
     ((⟨[7, 8, 9], 2⟩ : HoleVec Nat).before_region ≠ [] → ∃ v h',
        (⟨[7, 8, 9], 2⟩ : HoleVec Nat).pop_before_hole = some (some v, h') ∧
        (⟨[7, 8, 9], 2⟩ : HoleVec Nat).before_region.getLast? = some v ∧
        h'.hole_position + 1 = (⟨[7, 8, 9], 2⟩ : HoleVec Nat).hole_position) ∧
     ((⟨[7, 8, 9], 2⟩ : HoleVec Nat).after_region = [] →
        (⟨[7, 8, 9], 2⟩ : HoleVec Nat).pop_after_hole =
          some (none, (⟨[7, 8, 9], 2⟩ : HoleVec Nat))) ∧
     ((⟨[7, 8, 9], 2⟩ : HoleVec Nat).after_region ≠ [] → ∃ v h',
        (⟨[7, 8, 9], 2⟩ : HoleVec Nat).pop_after_hole = some (some v, h') ∧
        (⟨[7, 8, 9], 2⟩ : HoleVec Nat).after_region.head? = some v)) :=
  ⟨by decide, C5_pop_semantics (⟨[7, 8, 9], 2⟩ : HoleVec Nat) (by decide)⟩

/-- C6: for every invariant-satisfying state and every `k ≤ len_after_hole()`,
`move_hole_right(k)` followed by `move_hole_left(k)` restores the hole
position, the before-hole region and the after-hole region to their values
before the pair of calls. -/
theorem C6_round_trip {α : Type} (h : HoleVec α) (k : Nat) (hI : h.Inv)
    (hk : k ≤ h.len_after_hole) :
    ∃ h₁ h₂, h.move_hole_right k = some h₁ ∧ h₁.move_hole_left k = some h₂ ∧
      h₂.hole_position = h.hole_position ∧
      h₂.before_region = h.before_region ∧
      h₂.after_region = h.after_region := by
  obtain ⟨h₁, he₁, he₂⟩ := h.move_right_then_left_exact k hI hk
  exact ⟨h₁, h, he₁, he₂, rfl, rfl, rfl⟩

/-- Witness for C6: the state `vec = [1, 2, 3, 4]`, hole position 1, moved
right and back by 2. -/
theorem C6_witness :
    (⟨[1, 2, 3, 4], 1⟩ : HoleVec Nat).Inv ∧
    2 ≤ (⟨[1, 2, 3, 4], 1⟩ : HoleVec Nat).len_after_hole ∧
    ∃ h₁ h₂, (⟨[1, 2, 3, 4], 1⟩ : HoleVec Nat).move_hole_right 2 = some h₁ ∧
      h₁.move_hole_left 2 = some h₂ ∧
      h₂.hole_position = (⟨[1, 2, 3, 4], 1⟩ : HoleVec Nat).hole_position ∧
      h₂.before_region = (⟨[1, 2, 3, 4], 1⟩ : HoleVec Nat).before_region ∧
      h₂.after_region = (⟨[1, 2, 3, 4], 1⟩ : HoleVec Nat).after_region :=
  ⟨by decide, by decide,
    C6_round_trip (⟨[1, 2, 3, 4], 1⟩ : HoleVec Nat) 2 (by decide) (by decide)⟩

/-- C7 counterexample: on the state `vec = [1]`, hole position 0, the
boundary relocation `move_hole_right(len_after_hole()) = move_hole_right(1)`
is accepted but produces hole position 1, while the zero-distance move
produces hole position 0 — the boundary move is neither a no-op nor
identical to the zero-distance move. -/
theorem C7_counterexample :
    (⟨[1], 0⟩ : HoleVec Nat).len_after_hole = 1 ∧
    (⟨[1], 0⟩ : HoleVec Nat).move_hole_right 1 =
      some (⟨[1], 1⟩ : HoleVec Nat) ∧
    (⟨[1], 0⟩ : HoleVec Nat).move_hole_right 0 =
      some (⟨[1], 0⟩ : HoleVec Nat) ∧
    (⟨[1], 1⟩ : HoleVec Nat) ≠ (⟨[1], 0⟩ : HoleVec Nat) := by
  decide

/-- C7 (amended): a relocation whose amount exactly equals the available
region boundary — `move_hole_right(len_after_hole())` or
`move_hole_left(len_before_hole())` — is valid (the precondition uses `≤`)
and, like every valid move, preserves the full logical sequence; but it is
not a no-op in general: it moves the hole to the corresponding end of the
sequence (`hole_position = len()` resp. `0`), and it coincides with the
zero-distance move exactly when the region being crossed is empty. -/
theorem C7_boundary_moves {α : Type} (h : HoleVec α) (hI : h.Inv) :
    (∃ h', h.move_hole_right h.len_after_hole = some h' ∧
      h'.hole_position = h.len ∧
      h'.before_region ++ h'.after_region =
        h.before_region ++ h.after_region) ∧
    (∃ h', h.move_hole_left h.len_before_hole = some h' ∧
      h'.hole_position = 0 ∧
      h'.before_region ++ h'.after_region =
        h.before_region ++ h.after_region) ∧
    (h.len_after_hole = 0 →
      h.move_hole_right h.len_after_hole = h.move_hole_right 0) ∧
    (h.len_before_hole = 0 →
      h.move_hole_left h.len_before_hole = h.move_hole_left 0) := by
  have hn : h.hole_position ≤ h.vec.length := hI
  have hrel : h.len_after_hole = h.vec.length - h.hole_position := rfl
  have hlen : h.len = h.vec.length := rfl
  have hbef : h.len_before_hole = h.hole_position := rfl
  refine ⟨?_, ?_, ?_, ?_⟩
  · obtain ⟨h', he, hI', hpos, hseq⟩ :=
      h.move_hole_right_preserves_seq h.len_after_hole hI (le_refl _)
    refine ⟨h', he, ?_, hseq⟩
    omega
  · obtain ⟨h', he, hI', hpos, hseq⟩ :=
      h.move_hole_left_preserves_seq h.len_before_hole hI (le_refl _)
    refine ⟨h', he, ?_, hseq⟩
    omega
  · intro h0
    rw [h0]
  · intro h0
    rw [h0]

/-- Witness for C7 (amended): the state `vec = [3, 4], hole position 1`. -/
theorem C7_witness :
    (⟨[3, 4], 1⟩ : HoleVec Nat).Inv ∧
    ((∃ h', (⟨[3, 4], 1⟩ : HoleVec Nat).move_hole_right
          (⟨[3, 4], 1⟩ : HoleVec Nat).len_after_hole = some h' ∧
        h'.hole_position = (⟨[3, 4], 1⟩ : HoleVec Nat).len ∧
        h'.before_region ++ h'.after_region =
          (⟨[3, 4], 1⟩ : HoleVec Nat).before_region ++
            (⟨[3, 4], 1⟩ : HoleVec Nat).after_region) ∧
     (∃ h', (⟨[3, 4], 1⟩ : HoleVec Nat).move_hole_left
          (⟨[3, 4], 1⟩ : HoleVec Nat).len_before_hole = some h' ∧
        h'.hole_position = 0 ∧
        h'.before_region ++ h'.after_region =
          (⟨[3, 4], 1⟩ : HoleVec Nat).before_region ++
            (⟨[3, 4], 1⟩ : HoleVec Nat).after_region) ∧
     ((⟨[3, 4], 1⟩ : HoleVec Nat).len_after_hole = 0 →
        (⟨[3, 4], 1⟩ : HoleVec Nat).move_hole_right
            (⟨[3, 4], 1⟩ : HoleVec Nat).len_after_hole =
          (⟨[3, 4], 1⟩ : HoleVec Nat).move_hole_right 0) ∧
     ((⟨[3, 4], 1⟩ : HoleVec Nat).len_before_hole = 0 →
        (⟨[3, 4], 1⟩ : HoleVec Nat).move_hole_left
            (⟨[3, 4], 1⟩ : HoleVec Nat).len_before_hole =
          (⟨[3, 4], 1⟩ : HoleVec Nat).move_hole_left 0)) :=
  ⟨by decide, C7_boundary_moves (⟨[3, 4], 1⟩ : HoleVec Nat) (by decide)⟩

/-- C8: `push_before_hole(v)` appends `v` at the end of the before-hole
region, leaves the after-hole region unchanged, and increases
`hole_position` by 1; `push_after_hole(v)` inserts `v` at the start of the
after-hole region, leaves the before-hole region unchanged, and leaves
`hole_position` unchanged. -/
theorem C8_push_semantics {α : Type} (h : HoleVec α) (v : α) (hI : h.Inv) :
    (h.push_before_hole v).before_region = h.before_region ++ [v] ∧
    (h.push_before_hole v).after_region = h.after_region ∧
    (h.push_before_hole v).hole_position = h.hole_position + 1 ∧
    (h.push_after_hole v).after_region = v :: h.after_region ∧
    (h.push_after_hole v).before_region = h.before_region ∧
    (h.push_after_hole v).hole_position = h.hole_position := by
  have hn : h.hole_position ≤ h.vec.length := hI
  refine ⟨?_, ?_, rfl, ?_, ?_, rfl⟩
  · show (h.vec ++ [v]).drop ((h.vec ++ [v]).length - (h.hole_position + 1)) =
      h.before_region ++ [v]
    have e0 : (h.vec ++ [v]).length - (h.hole_position + 1) =
        h.vec.length - h.hole_position := by
      simp only [List.length_append, List.length_cons, List.length_nil]
      omega
    rw [e0, List.drop_append_of_le_length (Nat.sub_le _ _)]
    rfl
  · show (h.vec ++ [v]).take ((h.vec ++ [v]).length - (h.hole_position + 1)) =
      h.after_region
    have e0 : (h.vec ++ [v]).length - (h.hole_position + 1) =
        h.vec.length - h.hole_position := by
      simp only [List.length_append, List.length_cons, List.length_nil]
      omega
    rw [e0, List.take_append_of_le_length (Nat.sub_le _ _)]
    rfl
  · show (v :: h.vec).take ((v :: h.vec).length - h.hole_position) =
      v :: h.after_region
    have e0 : (v :: h.vec).length - h.hole_position =
        (h.vec.length - h.hole_position) + 1 := by
      simp only [List.length_cons]
      omega
    rw [e0, List.take_succ_cons]
    rfl
  · show (v :: h.vec).drop ((v :: h.vec).length - h.hole_position) =
      h.before_region
    have e0 : (v :: h.vec).length - h.hole_position =
        (h.vec.length - h.hole_position) + 1 := by
      simp only [List.length_cons]
      omega
    rw [e0, List.drop_succ_cons]
    rfl

/-- Witness for C8: the state `vec = [2, 1], hole position 1`, pushed
value 5. -/
theorem C8_witness :
    (⟨[2, 1], 1⟩ : HoleVec Nat).Inv ∧
    (((⟨[2, 1], 1⟩ : HoleVec Nat).push_before_hole 5).before_region =
       (⟨[2, 1], 1⟩ : HoleVec Nat).before_region ++ [5] ∧
     ((⟨[2, 1], 1⟩ : HoleVec Nat).push_before_hole 5).after_region =
       (⟨[2, 1], 1⟩ : HoleVec Nat).after_region ∧
     ((⟨[2, 1], 1⟩ : HoleVec Nat).push_before_hole 5).hole_position =
       (⟨[2, 1], 1⟩ : HoleVec Nat).hole_position + 1 ∧
     ((⟨[2, 1], 1⟩ : HoleVec Nat).push_after_hole 5).after_region =
       5 :: (⟨[2, 1], 1⟩ : HoleVec Nat).after_region ∧
     ((⟨[2, 1], 1⟩ : HoleVec Nat).push_after_hole 5).before_region =
       (⟨[2, 1], 1⟩ : HoleVec Nat).before_region ∧
     ((⟨[2, 1], 1⟩ : HoleVec Nat).push_after_hole 5).hole_position =
       (⟨[2, 1], 1⟩ : HoleVec Nat).hole_position) :=
  ⟨by decide, C8_push_semantics (⟨[2, 1], 1⟩ : HoleVec Nat) 5 (by decide)⟩

/-- C9: on every invariant-satisfying state the subtraction inside
`len_after_hole()` cannot underflow, and for every permitted physical split
the split offsets inside `as_slices`, `as_slices_before_hole` and
`as_slices_after_hole` are within bounds, so none of these operations — nor
the `expect` branches of the pops — reaches a failure branch. -/
theorem C9_no_failure {α : Type} (h : HoleVec α) (s : Nat) (hI : h.Inv)
    (hs : s ≤ h.vec.length) :
    checked_sub h.len h.hole_position = some h.len_after_hole ∧
    (h.as_slices s).isSome ∧
    (h.as_slices_before_hole s).isSome ∧
    (h.as_slices_after_hole s).isSome ∧
    h.pop_before_hole.isSome ∧
    h.pop_after_hole.isSome := by
  have hn : h.hole_position ≤ h.vec.length := hI
  refine ⟨?_, ?_, ?_, ?_, ?_, ?_⟩
  · simp [checked_sub, HoleVec.len, HoleVec.len_after_hole, hn]
  · obtain ⟨x, y, z, he, _⟩ := h.as_slices_spec s hI hs
    rw [he]
    rfl
  · obtain ⟨x, y, he, _⟩ := h.as_slices_before_hole_spec s hI hs
    rw [he]
    rfl
  · obtain ⟨x, y, he, _⟩ := h.as_slices_after_hole_spec s hI hs
    rw [he]
    rfl
  · by_cases hp0 : 0 < h.hole_position
    · obtain ⟨v, _, heq⟩ := h.pop_before_hole_eq_pos hI hp0
      rw [heq]
      rfl
    · rw [h.pop_before_hole_eq_zero (by omega)]
      rfl
  · by_cases hla : 0 < h.len_after_hole
    · obtain ⟨v, _, heq⟩ := h.pop_after_hole_eq_pos hla
      rw [heq]
      rfl
    · rw [h.pop_after_hole_eq_zero (by omega)]
      rfl

/-- Witness for C9: the state `vec = [1, 2, 3], hole position 2`, physical
split 1. -/
theorem C9_witness :
    (⟨[1, 2, 3], 2⟩ : HoleVec Nat).Inv ∧
    1 ≤ (⟨[1, 2, 3], 2⟩ : HoleVec Nat).vec.length ∧
    (checked_sub (⟨[1, 2, 3], 2⟩ : HoleVec Nat).len
        (⟨[1, 2, 3], 2⟩ : HoleVec Nat).hole_position =
      some (⟨[1, 2, 3], 2⟩ : HoleVec Nat).len_after_hole ∧
     ((⟨[1, 2, 3], 2⟩ : HoleVec Nat).as_slices 1).isSome ∧
     ((⟨[1, 2, 3], 2⟩ : HoleVec Nat).as_slices_before_hole 1).isSome ∧
     ((⟨[1, 2, 3], 2⟩ : HoleVec Nat).as_slices_after_hole 1).isSome ∧
     (⟨[1, 2, 3], 2⟩ : HoleVec Nat).pop_before_hole.isSome ∧
     (⟨[1, 2, 3], 2⟩ : HoleVec Nat).pop_after_hole.isSome) :=
  ⟨by decide, by decide,
    C9_no_failure (⟨[1, 2, 3], 2⟩ : HoleVec Nat) 1 (by decide) (by decide)⟩

/-- C10: `pop_after_hole()` leaves `hole_position` — and hence
`len_before_hole()` and the entire before-hole region — unchanged, both when
it returns a value and when it returns no value. -/
theorem C10_pop_after_frame {α : Type} (h : HoleVec α) (hI : h.Inv) :
    ∀ r h', h.pop_after_hole = some (r, h') →
      h'.hole_position = h.hole_position ∧
      h'.len_before_hole = h.len_before_hole ∧
      h'.before_region = h.before_region := by
  have hn : h.hole_position ≤ h.vec.length := hI
  have hrel : h.len_after_hole = h.vec.length - h.hole_position := rfl
  intro r h' he
  by_cases hla : 0 < h.len_after_hole
  · obtain ⟨v, hv, heq⟩ := h.pop_after_hole_eq_pos hla
    rw [heq] at he
    injection he with he'
    injection he' with hr hh
    subst hh
    refine ⟨rfl, rfl, ?_⟩
    show h.vec.tail.drop (h.vec.tail.length - h.hole_position) =
      h.vec.drop (h.vec.length - h.hole_position)
    rw [List.length_tail, ← List.drop_one, List.drop_drop]
    congr 1
    omega
  · rw [h.pop_after_hole_eq_zero (by omega)] at he
    injection he with he'
    injection he' with hr hh
    subst hh
    exact ⟨rfl, rfl, rfl⟩

/-- Witness for C10: the state `vec = [4, 5], hole position 1`. -/
theorem C10_witness :
    (⟨[4, 5], 1⟩ : HoleVec Nat).Inv ∧
    (∀ r h', (⟨[4, 5], 1⟩ : HoleVec Nat).pop_after_hole = some (r, h') →
      h'.hole_position = (⟨[4, 5], 1⟩ : HoleVec Nat).hole_position ∧
      h'.len_before_hole = (⟨[4, 5], 1⟩ : HoleVec Nat).len_before_hole ∧
      h'.before_region = (⟨[4, 5], 1⟩ : HoleVec Nat).before_region) :=
  ⟨by decide, C10_pop_after_frame (⟨[4, 5], 1⟩ : HoleVec Nat) (by decide)⟩

end HoleVecSpec
